import Mathlib

/-!
Verification of the structural block extractor in
`src/scripts/extract-routers.py` (the Troubadour repository).

Lines of the input file are modelled as lists of characters
(`Line := List Char`); the Python functions `find_router_end`,
`extract_router_block` and the locating / reporting loop of `main`
are embedded as executable Lean functions below, keeping the source's
control flow: a character scan threading the brace counter, the paren
counter and the `started` flag; a backward walk for comment attachment;
a last-occurrence-wins mapping for the definition locator; and an
entry/total accumulation for the group reporter.
-/

/-- A line of the input file, after stripping its trailing newline. -/
abbrev Line := List Char

/-- The opening-brace character (written via its code point). -/
def openBrace : Char := '\x7b'

/-- The closing-brace character (written via its code point). -/
def closeBrace : Char := '\x7d'

/-- The name `foo` used by the concrete test inputs. -/
def fooName : List Char := ("foo").toList

/-! ### Block Extent Finder: `find_router_end` -/

/-- One character step of `find_router_end`'s inner loop: the state is
`(brace_count, paren_count, started)` and the branches mirror the
`if/elif` chain of the Python source. -/
def scanChar : Int × Int × Bool → Char → Int × Int × Bool
  | (b, p, s), c =>
    if c = openBrace then (b + 1, p, true)
    else if c = closeBrace then (b - 1, p, s)
    else if c = '(' then (b, p + 1, s)
    else if c = ')' then (b, p - 1, s)
    else (b, p, s)

/-- Scanning all characters of one line (`for ch in lines[i]`). -/
def scanLine (st : Int × Int × Bool) (l : Line) : Int × Int × Bool :=
  l.foldl scanChar st

/-- The line loop of `find_router_end`: `n` is `len(lines)` (as an
integer, so that the fallback `len(lines) - 1` is `-1` on an empty
input), the list argument is the remaining lines, the `Nat` argument
is the current line index `i`.  After scanning a line the function
returns `i` when `started and brace_count == 0`; when the lines run
out it returns `n - 1`. -/
def findRouterEndAux (n : Int) : List Line → Nat → Int × Int × Bool → Int
  | [], _, _ => n - 1
  | l :: ls, i, st =>
    if (scanLine st l).2.2 = true ∧ (scanLine st l).1 = 0 then (i : Int)
    else findRouterEndAux n ls (i + 1) (scanLine st l)

/-- `find_router_end(lines, start_idx)`: brace/paren depth matching
from `start_idx`, returning the index of the line on which the brace
counter is zero after having started, or `len(lines) - 1`. -/
def findRouterEnd (lines : List Line) (start_idx : Nat) : Int :=
  findRouterEndAux (lines.length : Int) (lines.drop start_idx) start_idx (0, 0, false)

/-! ### Specification-side counters for the Extent Finder -/

/-- Contribution of one character to the brace-depth counter. -/
def braceD (c : Char) : Int :=
  if c = openBrace then 1 else if c = closeBrace then -1 else 0

/-- Contribution of one character to the parenthesis-depth counter. -/
def parenD (c : Char) : Int :=
  if c = '(' then 1 else if c = ')' then -1 else 0

/-- Net brace-depth change over one line. -/
def braceDeltaL (l : Line) : Int := (l.map braceD).sum

/-- Net parenthesis-depth change over one line. -/
def parenDeltaL (l : Line) : Int := (l.map parenD).sum

/-- Whether a line contains an opening brace (sets the `started` flag). -/
def hasBraceL (l : Line) : Bool := l.any (fun c => c == openBrace)

/-- Net brace-depth change over a list of lines. -/
def segDelta (ls : List Line) : Int := (ls.map braceDeltaL).sum

/-- Whether any line of the list contains an opening brace. -/
def anyOpen (ls : List Line) : Bool := ls.any hasBraceL

/-- The closing condition relative to an inherited brace count `b` and
started flag `s`: after scanning the first `k + 1` lines of `seg` the
scan has started and the brace counter is back to zero. -/
def closesSegFrom (b : Int) (s : Bool) (seg : List Line) (k : Nat) : Prop :=
  (s || anyOpen (seg.take (k + 1))) = true ∧ b + segDelta (seg.take (k + 1)) = 0

/-- The closing condition from a fresh scan. -/
def closesSeg (seg : List Line) (k : Nat) : Prop :=
  anyOpen (seg.take (k + 1)) = true ∧ segDelta (seg.take (k + 1)) = 0

/-- Line `i` closes a block opened at line `start`: scanning lines
`start..i` the brace counter has been incremented at least once and its
value at the end of line `i` is zero. -/
def closesAt (lines : List Line) (start i : Nat) : Prop :=
  closesSeg (lines.drop start) (i - start)

instance (b s seg k) : Decidable (closesSegFrom b s seg k) := by
  unfold closesSegFrom; infer_instance

instance (seg k) : Decidable (closesSeg seg k) := by
  unfold closesSeg; infer_instance

instance (lines start i) : Decidable (closesAt lines start i) := by
  unfold closesAt; infer_instance

/-! ### Basic lemmas about the scan -/

theorem scanChar_eq (b p : Int) (s : Bool) (c : Char) :
    scanChar (b, p, s) c = (b + braceD c, p + parenD c, s || (c == openBrace)) := by
  simp only [scanChar, braceD, parenD]
  by_cases h1 : c = openBrace
  · subst h1
    have h2 : openBrace ≠ closeBrace := by decide
    have h3 : openBrace ≠ '(' := by decide
    have h4 : openBrace ≠ ')' := by decide
    simp [h2, h3, h4]
  · by_cases h2 : c = closeBrace
    · subst h2
      have h3 : closeBrace ≠ '(' := by decide
      have h4 : closeBrace ≠ ')' := by decide
      have hb : (closeBrace == openBrace) = false := by decide
      simp [h1, h3, h4, hb]
      omega
    · by_cases h3 : c = '('
      · subst h3
        have hb : (Char.ofNat 40 == openBrace) = false := by decide
        have hc : ('(' == openBrace) = false := by decide
        simp [h1, h2, hc]
      · by_cases h4 : c = ')'
        · subst h4
          have hc : (')' == openBrace) = false := by decide
          simp [h1, h2, h3, hc]
          omega
        · have hc : (c == openBrace) = false := by
            simp [beq_eq_false_iff_ne, h1]
          simp [h1, h2, h3, h4, hc]

theorem scanLine_eq (l : Line) : ∀ (b p : Int) (s : Bool),
    scanLine (b, p, s) l = (b + braceDeltaL l, p + parenDeltaL l, s || hasBraceL l) := by
  induction l with
  | nil => intro b p s; simp [scanLine, braceDeltaL, parenDeltaL, hasBraceL]
  | cons c cs ih =>
    intro b p s
    have step : scanLine (b, p, s) (c :: cs) = scanLine (scanChar (b, p, s) c) cs := rfl
    rw [step, scanChar_eq, ih]
    simp [braceDeltaL, parenDeltaL, hasBraceL, add_assoc, Bool.or_assoc]

theorem closesSegFrom_zero (b : Int) (s : Bool) (l : Line) (ls : List Line) :
    closesSegFrom b s (l :: ls) 0 ↔ ((s || hasBraceL l) = true ∧ b + braceDeltaL l = 0) := by
  simp [closesSegFrom, anyOpen, segDelta]

theorem closesSegFrom_succ (b : Int) (s : Bool) (l : Line) (ls : List Line) (k : Nat) :
    closesSegFrom b s (l :: ls) (k + 1) ↔
      closesSegFrom (b + braceDeltaL l) (s || hasBraceL l) ls k := by
  simp [closesSegFrom, anyOpen, segDelta, Bool.or_assoc, add_assoc]

theorem closesSeg_iff (seg : List Line) (k : Nat) :
    closesSeg seg k ↔ closesSegFrom 0 false seg k := by
  simp [closesSeg, closesSegFrom]

/-- If no line of the remaining segment closes the block (relative to
the inherited state), the loop falls through and returns `n - 1`. -/
theorem findRouterEndAux_none (n : Int) :
    ∀ (seg : List Line) (i : Nat) (b p : Int) (s : Bool),
      (∀ k, k < seg.length → ¬ closesSegFrom b s seg k) →
      findRouterEndAux n seg i (b, p, s) = n - 1 := by
  intro seg
  induction seg with
  | nil => intro i b p s _; rfl
  | cons l ls ih =>
    intro i b p s hno
    have hcond : ¬ (((s || hasBraceL l) = true) ∧ b + braceDeltaL l = 0) := by
      intro hc
      exact hno 0 (Nat.succ_pos _) ((closesSegFrom_zero b s l ls).mpr hc)
    have : findRouterEndAux n (l :: ls) i (b, p, s) =
        findRouterEndAux n ls (i + 1) (scanLine (b, p, s) l) := by
      simp only [findRouterEndAux, scanLine_eq]
      rw [if_neg]
      exact hcond
    rw [this, scanLine_eq]
    exact ih (i + 1) _ _ _ (fun k hk hc =>
      hno (k + 1) (Nat.succ_lt_succ hk) ((closesSegFrom_succ b s l ls k).mpr hc))

/-- If line `k` of the remaining segment is the first that closes the
block (relative to the inherited state), the loop returns `i + k`. -/
theorem findRouterEndAux_first (n : Int) :
    ∀ (seg : List Line) (k i : Nat) (b p : Int) (s : Bool),
      k < seg.length → closesSegFrom b s seg k →
      (∀ j, j < k → ¬ closesSegFrom b s seg j) →
      findRouterEndAux n seg i (b, p, s) = ((i + k : Nat) : Int) := by
  intro seg
  induction seg with
  | nil => intro k i b p s hk; exact absurd hk (Nat.not_lt_zero k)
  | cons l ls ih =>
    intro k i b p s hk hc hmin
    match k with
    | 0 =>
      have hc0 := (closesSegFrom_zero b s l ls).mp hc
      have : findRouterEndAux n (l :: ls) i (b, p, s) = (i : Int) := by
        simp only [findRouterEndAux, scanLine_eq]
        rw [if_pos]
        exact hc0
      rw [this]; simp
    | k' + 1 =>
      have hcond : ¬ (((s || hasBraceL l) = true) ∧ b + braceDeltaL l = 0) := by
        intro h0
        exact hmin 0 (Nat.succ_pos _) ((closesSegFrom_zero b s l ls).mpr h0)
      have hstep : findRouterEndAux n (l :: ls) i (b, p, s) =
          findRouterEndAux n ls (i + 1) (scanLine (b, p, s) l) := by
        simp only [findRouterEndAux, scanLine_eq]
        rw [if_neg]
        exact hcond
      rw [hstep, scanLine_eq]
      have := ih k' (i + 1) (b + braceDeltaL l) (p + parenDeltaL l) (s || hasBraceL l)
        (Nat.lt_of_succ_lt_succ hk)
        ((closesSegFrom_succ b s l ls k').mp hc)
        (fun j hj hcj =>
          hmin (j + 1) (Nat.succ_lt_succ hj) ((closesSegFrom_succ b s l ls j).mpr hcj))
      rw [this]
      congr 1
      omega

/-- The loop's result is either the fallback `n - 1` or an index of a
scanned line: at least `i` and less than `i` plus the segment length. -/
theorem findRouterEndAux_bounds (n : Int) :
    ∀ (seg : List Line) (i : Nat) (st : Int × Int × Bool),
      findRouterEndAux n seg i st = n - 1 ∨
        ((i : Int) ≤ findRouterEndAux n seg i st ∧
          findRouterEndAux n seg i st < (i : Int) + seg.length) := by
  intro seg
  induction seg with
  | nil => intro i st; exact Or.inl rfl
  | cons l ls ih =>
    intro i st
    by_cases hcond : ((scanLine st l).2.2 = true ∧ (scanLine st l).1 = 0)
    · right
      have : findRouterEndAux n (l :: ls) i st = (i : Int) := by
        simp only [findRouterEndAux]
        rw [if_pos hcond]
      rw [this]
      constructor
      · exact le_refl _
      · simp only [List.length_cons]
        push_cast
        omega
    · have hstep : findRouterEndAux n (l :: ls) i st =
          findRouterEndAux n ls (i + 1) (scanLine st l) := by
        simp only [findRouterEndAux]
        rw [if_neg hcond]
      rw [hstep]
      rcases ih (i + 1) (scanLine st l) with h | ⟨h1, h2⟩
      · exact Or.inl h
      · right
        constructor
        · calc (i : Int) ≤ ((i + 1 : Nat) : Int) := by push_cast; omega
            _ ≤ _ := h1
        · calc findRouterEndAux n ls (i + 1) (scanLine st l)
              < ((i + 1 : Nat) : Int) + ls.length := h2
            _ = (i : Int) + (l :: ls).length := by simp; omega

/-! ### The Extent Finder with the parenthesis counter removed (for C9) -/

/-- One character step of `find_router_end` with the `paren_count`
variable and its updates removed; otherwise identical. -/
def scanCharNP : Int × Bool → Char → Int × Bool
  | (b, s), c =>
    if c = openBrace then (b + 1, true)
    else if c = closeBrace then (b - 1, s)
    else (b, s)

/-- Scanning one line without the parenthesis counter. -/
def scanLineNP (st : Int × Bool) (l : Line) : Int × Bool :=
  l.foldl scanCharNP st

/-- The line loop of `find_router_end` without the parenthesis counter. -/
def findRouterEndAuxNP (n : Int) : List Line → Nat → Int × Bool → Int
  | [], _, _ => n - 1
  | l :: ls, i, st =>
    if (scanLineNP st l).2 = true ∧ (scanLineNP st l).1 = 0 then (i : Int)
    else findRouterEndAuxNP n ls (i + 1) (scanLineNP st l)

/-- `find_router_end` with `paren_count` and its updates removed. -/
def findRouterEndNP (lines : List Line) (start_idx : Nat) : Int :=
  findRouterEndAuxNP (lines.length : Int) (lines.drop start_idx) start_idx (0, false)

theorem scanCharNP_eq (b : Int) (s : Bool) (c : Char) :
    scanCharNP (b, s) c = (b + braceD c, s || (c == openBrace)) := by
  simp only [scanCharNP, braceD]
  by_cases h1 : c = openBrace
  · subst h1
    have h2 : openBrace ≠ closeBrace := by decide
    simp [h2]
  · by_cases h2 : c = closeBrace
    · subst h2
      have hb : (closeBrace == openBrace) = false := by decide
      simp [h1, hb]
      omega
    · have hc : (c == openBrace) = false := by
        simp [beq_eq_false_iff_ne, h1]
      simp [h1, h2, hc]

theorem scanLineNP_eq (l : Line) : ∀ (b : Int) (s : Bool),
    scanLineNP (b, s) l = (b + braceDeltaL l, s || hasBraceL l) := by
  induction l with
  | nil => intro b s; simp [scanLineNP, braceDeltaL, hasBraceL]
  | cons c cs ih =>
    intro b s
    have step : scanLineNP (b, s) (c :: cs) = scanLineNP (scanCharNP (b, s) c) cs := rfl
    rw [step, scanCharNP_eq, ih]
    simp [braceDeltaL, hasBraceL, add_assoc, Bool.or_assoc]

theorem findRouterEndAuxNP_eq (n : Int) :
    ∀ (seg : List Line) (i : Nat) (b p : Int) (s : Bool),
      findRouterEndAuxNP n seg i (b, s) = findRouterEndAux n seg i (b, p, s) := by
  intro seg
  induction seg with
  | nil => intro i b p s; rfl
  | cons l ls ih =>
    intro i b p s
    simp only [findRouterEndAuxNP, findRouterEndAux, scanLine_eq, scanLineNP_eq]
    by_cases hcond : (((s || hasBraceL l) = true) ∧ b + braceDeltaL l = 0)
    · rw [if_pos hcond, if_pos hcond]
    · rw [if_neg hcond, if_neg hcond]
      exact ih (i + 1) _ _ _

/-! ### Theorems for claims C1, C2, C9, C10 -/

/-- C1: for every line sequence and every in-range start index,
`find_router_end` returns the index of the line at which the
brace-depth counter — incremented on every opening brace and
decremented on every closing brace while scanning the characters of
each line in order from the start line — is first back at zero after
the scan has started (an opening brace has been counted); the counter
is inspected at the end of each scanned line. -/
theorem find_router_end_first_return (lines : List Line) (start i : Nat)
    (h1 : start ≤ i) (h2 : i < lines.length)
    (hc : closesAt lines start i)
    (hmin : ∀ j, j < i → start ≤ j → ¬ closesAt lines start j) :
    findRouterEnd lines start = (i : Int) := by
  unfold findRouterEnd
  have hk : i - start < (lines.drop start).length := by
    rw [List.length_drop]; omega
  have hcf : closesSegFrom 0 false (lines.drop start) (i - start) :=
    (closesSeg_iff _ _).mp hc
  have hminf : ∀ j, j < i - start → ¬ closesSegFrom 0 false (lines.drop start) j := by
    intro j hj hcj
    have heq : start + j - start = j := by omega
    have : closesAt lines start (start + j) := by
      unfold closesAt closesSeg
      rw [heq]
      exact (closesSeg_iff _ _).mpr hcj
    exact hmin (start + j) (by omega) (by omega) this
  have := findRouterEndAux_first (lines.length : Int) (lines.drop start)
    (i - start) start 0 0 false hk hcf hminf
  rw [this]
  congr 1
  omega

/-- The crafted three-line input of the depth-matching test: an inner
brace pair must not terminate the scan early. -/
def exLines1 : List Line :=
  [("  foo: router(\x7b").toList, ("  a: \x7b1\x7d").toList, ("\x7d),").toList]

theorem find_router_end_first_return_witness :
    findRouterEnd exLines1 0 = (2 : Int) :=
  find_router_end_first_return exLines1 0 2 (by decide) (by decide) (by decide)
    (by decide)

/-- C2: if the brace counter never returns to zero after the scan has
started (including when no brace is ever seen), `find_router_end`
returns the last valid line index `len(lines) - 1`; the function is
total, so no exception is raised. -/
theorem find_router_end_exhausted (lines : List Line) (start : Nat)
    (h : ∀ j, j < lines.length → start ≤ j → ¬ closesAt lines start j) :
    findRouterEnd lines start = (lines.length : Int) - 1 := by
  unfold findRouterEnd
  apply findRouterEndAux_none
  intro k hk hc
  have hlen : k < lines.length - start := by
    rw [List.length_drop] at hk; exact hk
  have heq : start + k - start = k := by omega
  apply h (start + k) (by omega) (by omega)
  unfold closesAt closesSeg
  rw [heq]
  exact (closesSeg_iff _ _).mpr hc

/-- A single line opening a brace that is never closed. -/
def exLines2 : List Line := [("\x7b").toList]

theorem find_router_end_exhausted_witness :
    findRouterEnd exLines2 0 = (exLines2.length : Int) - 1 :=
  find_router_end_exhausted exLines2 0 (by decide)

/-- C9: the parenthesis counter is computed but never read by the
termination condition: `find_router_end` agrees everywhere with the
otherwise identical function from which `paren_count` and its updates
are removed. -/
theorem find_router_end_paren_count_unused (lines : List Line) (start : Nat) :
    findRouterEnd lines start = findRouterEndNP lines start := by
  unfold findRouterEnd findRouterEndNP
  exact (findRouterEndAuxNP_eq (lines.length : Int) (lines.drop start) start 0 0 false).symm

/-- C10: called with a start index at or beyond the number of lines
(the empty sequence included, where the result is `-1`),
`find_router_end` returns `len(lines) - 1`, which is strictly less
than the start index; so `endLine >= startLine` needs the in-range
precondition. -/
theorem find_router_end_out_of_range (lines : List Line) (start : Nat)
    (h : lines.length ≤ start) :
    findRouterEnd lines start = (lines.length : Int) - 1 ∧
      findRouterEnd lines start < (start : Int) := by
  have hdrop : lines.drop start = [] := by
    rw [List.drop_eq_nil_iff]
    exact h
  constructor
  · unfold findRouterEnd
    rw [hdrop]
    rfl
  · unfold findRouterEnd
    rw [hdrop]
    show (lines.length : Int) - 1 < (start : Int)
    omega

theorem find_router_end_out_of_range_witness :
    findRouterEnd ([] : List Line) 0 = -1 ∧ findRouterEnd ([] : List Line) 0 < 0 := by
  have h := find_router_end_out_of_range ([] : List Line) 0 (Nat.le_refl 0)
  exact ⟨by simpa using h.1, by simpa using h.2⟩

/-! ### Comment Attacher: the backward walk of `extract_router_block` -/

/-- The whitespace characters removed by Python's `str.strip()`
(restricted to ASCII). -/
def isPySpace (c : Char) : Bool :=
  c == ' ' || c == '\t' || c == '\n' || c == '\x0b' || c == '\x0c' || c == '\r'

/-- `line.strip()`: remove leading and trailing whitespace. -/
def pyStrip (l : List Char) : List Char :=
  ((l.dropWhile isPySpace).reverse.dropWhile isPySpace).reverse

/-- `xs.startswith(pat)` on character lists (pattern first). -/
def startsList : List Char → List Char → Bool
  | [], _ => true
  | _ :: _, [] => false
  | a :: xs, b :: ys => a == b && startsList xs ys

/-- The single-line-comment marker `//`. -/
def commentMarker : List Char := ['/', '/']

/-- `line.strip().startswith('//')`. -/
def isCommentLine (l : Line) : Bool := startsList commentMarker (pyStrip l)

/-- The backward walk of `extract_router_block`:
`while comment_start > 0 and lines[comment_start - 1].strip().startswith('//'):
comment_start -= 1`, expressed by recursion on the index. -/
def commentStart (lines : List Line) : Nat → Nat
  | 0 => 0
  | k + 1 => if isCommentLine (lines.getD k []) then commentStart lines k else k + 1

theorem commentStart_le (lines : List Line) : ∀ d, commentStart lines d ≤ d := by
  intro d
  induction d with
  | zero => exact Nat.le_refl 0
  | succ k ih =>
    by_cases hcom : isCommentLine (lines.getD k []) = true
    · rw [commentStart, if_pos hcom]
      omega
    · rw [commentStart, if_neg hcom]

theorem commentStart_comments (lines : List Line) :
    ∀ d j, commentStart lines d ≤ j → j < d → isCommentLine (lines.getD j []) = true := by
  intro d
  induction d with
  | zero => intro j _ hj; omega
  | succ k ih =>
    intro j hj1 hj2
    by_cases hcom : isCommentLine (lines.getD k []) = true
    · rw [commentStart, if_pos hcom] at hj1
      rcases Nat.lt_succ_iff_lt_or_eq.mp hj2 with h | h
      · exact ih j hj1 h
      · rw [h]; exact hcom
    · rw [commentStart, if_neg hcom] at hj1
      omega

theorem commentStart_stop (lines : List Line) :
    ∀ d, commentStart lines d = 0 ∨
      isCommentLine (lines.getD (commentStart lines d - 1) []) = false := by
  intro d
  induction d with
  | zero => exact Or.inl rfl
  | succ k ih =>
    by_cases hcom : isCommentLine (lines.getD k []) = true
    · rw [commentStart, if_pos hcom]
      exact ih
    · right
      rw [commentStart, if_neg hcom]
      simp only [Nat.add_sub_cancel]
      simpa using hcom

/-- The comment-attachment example: two comment lines directly above
the definition. -/
def exLines3 : List Line :=
  [("// note one").toList, ("// note two").toList,
    ("  foo: router(\x7b").toList, ("\x7d),").toList]

/-- The same example with a blank line between the comments and the
definition (the definition is at index 3). -/
def exLines4 : List Line :=
  [("// note one").toList, ("// note two").toList, ("").toList,
    ("  foo: router(\x7b").toList, ("\x7d),").toList]

/-- C3: the Comment Attacher returns the smallest index reachable by
stepping backward from `declLine` while the index is positive and the
previous line, trimmed, begins with `//`; it stops at the first line
failing this test or at index 0.  On the two-comment example with
`declLine = 2` the effective start is 0, and with a blank line inserted
it is the declaration line itself. -/
theorem comment_attacher_walk :
    (∀ (lines : List Line) (d : Nat),
        commentStart lines d ≤ d ∧
        (∀ j, commentStart lines d ≤ j → j < d →
          isCommentLine (lines.getD j []) = true) ∧
        (commentStart lines d = 0 ∨
          isCommentLine (lines.getD (commentStart lines d - 1) []) = false)) ∧
    commentStart exLines3 2 = 0 ∧
    commentStart exLines4 3 = 3 :=
  ⟨fun lines d =>
    ⟨commentStart_le lines d, commentStart_comments lines d, commentStart_stop lines d⟩,
    by decide, by decide⟩

theorem comment_attacher_walk_witness :
    commentStart exLines3 2 ≤ 2 ∧ commentStart exLines4 3 ≤ 3 :=
  ⟨(comment_attacher_walk.1 exLines3 2).1, (comment_attacher_walk.1 exLines4 3).1⟩

/-! ### Definition Locator: the pattern and the mapping of `main` -/

/-- A word character of the pattern `\w` (ASCII: letter, digit or
underscore). -/
def isWordChar (c : Char) : Bool := c.isAlphanum || c == '_'

/-- The literal part of the pattern after the captured identifier:
`: router({` (the regex is `^  (\w+): router\(\{`). -/
def routerOpenPat : List Char :=
  [':', ' ', 'r', 'o', 'u', 't', 'e', 'r', '(', openBrace]

/-- `re.match` of the anchored pattern `^  (\w+): router\(\{` against a
line: the first two characters are spaces, then a nonempty maximal run
of word characters (the captured name), immediately followed by the
literal `: router({`; the rest of the line is unconstrained. -/
def matchRouterLine (l : Line) : Option (List Char) :=
  match l with
  | c1 :: c2 :: rest =>
    if c1 = ' ' ∧ c2 = ' ' then
      if (rest.takeWhile isWordChar) ≠ [] ∧
          startsList routerOpenPat (rest.dropWhile isWordChar) = true
      then some (rest.takeWhile isWordChar) else none
    else none
  | _ => none

/-- The locating loop of `main` (`for i, line in enumerate(lines): if m:
routers[m.group(1)] = i`) observed at one key: the accumulator holds the
mapping's current value for `name` and each match of `name` overwrites
it with the current index. -/
def routersFindFrom (name : List Char) : List Line → Nat → Option Nat → Option Nat
  | [], _, acc => acc
  | l :: ls, i, acc =>
    routersFindFrom name ls (i + 1)
      (match matchRouterLine l with
        | some n => if n = name then some i else acc
        | none => acc)

/-- `routers.get(name)`: the locator mapping's entry for `name`. -/
def routersFind (lines : List Line) (name : List Char) : Option Nat :=
  routersFindFrom name lines 0 none

/-- The index (relative to the list) of the last line matching the
pattern with the given name, if any. -/
def lastMatchIdx (name : List Char) : List Line → Option Nat
  | [] => none
  | l :: ls =>
    match lastMatchIdx name ls with
    | some k => some (k + 1)
    | none => if matchRouterLine l = some name then some 0 else none

theorem startsList_iff (pat : List Char) :
    ∀ l, startsList pat l = true ↔ ∃ t, l = pat ++ t := by
  induction pat with
  | nil =>
    intro l
    simp [startsList]
  | cons a xs ih =>
    intro l
    cases l with
    | nil =>
      simp [startsList]
    | cons b ys =>
      simp only [startsList, Bool.and_eq_true, beq_iff_eq, ih, List.cons_append,
        List.cons.injEq]
      constructor
      · rintro ⟨hab, t, rfl⟩
        exact ⟨t, hab.symm, rfl⟩
      · rintro ⟨t, h1, h2⟩
        exact ⟨h1.symm, t, h2⟩

theorem routersFindFrom_eq (name : List Char) :
    ∀ (ls : List Line) (i : Nat) (acc : Option Nat),
      routersFindFrom name ls i acc =
        (match lastMatchIdx name ls with
          | some k => some (i + k)
          | none => acc) := by
  intro ls
  induction ls with
  | nil => intro i acc; rfl
  | cons l ls ih =>
    intro i acc
    have step : routersFindFrom name (l :: ls) i acc =
        routersFindFrom name ls (i + 1)
          (match matchRouterLine l with
            | some n => if n = name then some i else acc
            | none => acc) := rfl
    rw [step, ih]
    cases hlm : lastMatchIdx name ls with
    | some k =>
      simp only [lastMatchIdx, hlm]
      congr 1
      omega
    | none =>
      simp only [lastMatchIdx, hlm]
      cases hml : matchRouterLine l with
      | none =>
        have hne : ¬ matchRouterLine l = some name := by simp [hml]
        simp [hml, hne]
      | some n =>
        by_cases hn : n = name
        · subst hn
          simp [hml]
        · have hne : ¬ matchRouterLine l = some name := by simp [hml, hn]
          simp [hml, hn, hne]

theorem lastMatchIdx_none_iff (name : List Char) :
    ∀ ls, lastMatchIdx name ls = none ↔
      ∀ k, k < ls.length → matchRouterLine (ls.getD k []) ≠ some name := by
  intro ls
  induction ls with
  | nil => simp [lastMatchIdx]
  | cons l ls ih =>
    constructor
    · intro h k hk
      cases hlm : lastMatchIdx name ls with
      | some k' => simp [lastMatchIdx, hlm] at h
      | none =>
        have hl : ¬ matchRouterLine l = some name := by
          by_contra hc
          simp [lastMatchIdx, hlm, hc] at h
        match k with
        | 0 => simpa using hl
        | k + 1 =>
          have := (ih.mp hlm) k (by simpa using hk)
          simpa using this
    · intro h
      have h0 : ¬ matchRouterLine l = some name := by
        simpa using h 0 (Nat.succ_pos _)
      have hrest : lastMatchIdx name ls = none :=
        ih.mpr (fun k hk => by simpa using h (k + 1) (Nat.succ_lt_succ hk))
      simp [lastMatchIdx, hrest, h0]

theorem lastMatchIdx_some_iff (name : List Char) :
    ∀ ls k, lastMatchIdx name ls = some k ↔
      (k < ls.length ∧ matchRouterLine (ls.getD k []) = some name ∧
        ∀ j, k < j → j < ls.length → matchRouterLine (ls.getD j []) ≠ some name) := by
  intro ls
  induction ls with
  | nil => intro k; simp [lastMatchIdx]
  | cons l ls ih =>
    intro k
    cases hlm : lastMatchIdx name ls with
    | some k' =>
      obtain ⟨hk1, hk2, hk3⟩ := (ih k').mp hlm
      have hstep : lastMatchIdx name (l :: ls) = some (k' + 1) := by
        simp [lastMatchIdx, hlm]
      constructor
      · intro h
        rw [hstep] at h
        have hk : k = k' + 1 := by injection h with h; omega
        subst hk
        refine ⟨by simp; omega, by simpa using hk2, ?_⟩
        intro j hj1 hj2
        obtain ⟨j', rfl⟩ : ∃ j', j = j' + 1 := ⟨j - 1, by omega⟩
        simp only [List.getD_cons_succ]
        exact hk3 j' (by omega) (by simp at hj2; omega)
      · rintro ⟨hkl, hmatch, hmax⟩
        rw [hstep]
        have hup : ¬ k ≤ k' := by
          intro hle
          apply hmax (k' + 1) (by omega) (by simp; omega)
          simpa using hk2
        have hdown : ¬ k' + 1 < k := by
          intro hlt
          obtain ⟨k'', rfl⟩ : ∃ k'', k = k'' + 1 := ⟨k - 1, by omega⟩
          apply hk3 k'' (by omega) (by simp at hkl; omega)
          simpa using hmatch
        congr 1
        omega
    | none =>
      have hnone := (lastMatchIdx_none_iff name ls).mp hlm
      by_cases hm : matchRouterLine l = some name
      · have hstep : lastMatchIdx name (l :: ls) = some 0 := by
          simp [lastMatchIdx, hlm, hm]
        constructor
        · intro h
          rw [hstep] at h
          have hk : k = 0 := by injection h with h; omega
          subst hk
          refine ⟨by simp, by simpa using hm, ?_⟩
          intro j hj1 hj2
          obtain ⟨j', rfl⟩ : ∃ j', j = j' + 1 := ⟨j - 1, by omega⟩
          simp only [List.getD_cons_succ]
          exact hnone j' (by simp at hj2; omega)
        · rintro ⟨hkl, hmatch, hmax⟩
          rw [hstep]
          have hk : k = 0 := by
            by_contra hne
            obtain ⟨k'', rfl⟩ : ∃ k'', k = k'' + 1 := ⟨k - 1, by omega⟩
            exact hnone k'' (by simp at hkl; omega) (by simpa using hmatch)
          rw [hk]
      · have hstep : lastMatchIdx name (l :: ls) = none := by
          simp [lastMatchIdx, hlm, hm]
        rw [hstep]
        refine iff_of_false (by simp) ?_
        rintro ⟨hkl, hmatch, hmax⟩
        match k, hmatch with
        | 0, hmatch => exact hm (by simpa using hmatch)
        | k'' + 1, hmatch =>
          exact hnone k'' (by simp at hkl; omega) (by simpa using hmatch)

theorem routersFind_some_iff (lines : List Line) (name : List Char) (i : Nat) :
    routersFind lines name = some i ↔ lastMatchIdx name lines = some i := by
  unfold routersFind
  rw [routersFindFrom_eq]
  cases h : lastMatchIdx name lines with
  | none => simp [h]
  | some k => simp [h]

theorem routersFind_lt (lines : List Line) (name : List Char) (start : Nat)
    (h : routersFind lines name = some start) : start < lines.length :=
  ((lastMatchIdx_some_iff name lines start).mp
    ((routersFind_some_iff lines name start).mp h)).1

theorem matchRouterLine_some_iff (l : Line) (name : List Char) :
    matchRouterLine l = some name ↔
      (name ≠ [] ∧ (∀ c ∈ name, isWordChar c = true) ∧
        ∃ rest, l = ' ' :: ' ' :: (name ++ (routerOpenPat ++ rest))) := by
  have hcolon : ¬ (isWordChar ':' = true) := by decide
  constructor
  · intro h
    match l with
    | [] => exact absurd h (by simp [matchRouterLine])
    | [c1] => exact absurd h (by simp [matchRouterLine])
    | c1 :: c2 :: rest =>
      simp only [matchRouterLine] at h
      by_cases hsp : c1 = ' ' ∧ c2 = ' '
      · rw [if_pos hsp] at h
        by_cases hcond : ((rest.takeWhile isWordChar) ≠ [] ∧
            startsList routerOpenPat (rest.dropWhile isWordChar) = true)
        · rw [if_pos hcond] at h
          injection h with hname
          obtain ⟨hne, hstart⟩ := hcond
          obtain ⟨t, ht⟩ := (startsList_iff routerOpenPat _).mp hstart
          obtain ⟨hc1, hc2⟩ := hsp
          subst hc1; subst hc2; subst hname
          refine ⟨hne, fun c hc => List.mem_takeWhile_imp hc, t, ?_⟩
          have : rest = rest.takeWhile isWordChar ++ (routerOpenPat ++ t) := by
            rw [← ht, List.takeWhile_append_dropWhile]
          rw [← this]
        · rw [if_neg hcond] at h
          exact absurd h (by simp)
      · rw [if_neg hsp] at h
        exact absurd h (by simp)
  · rintro ⟨hne, hword, rest, rfl⟩
    have hpatcons : routerOpenPat ++ rest =
        ':' :: ([' ', 'r', 'o', 'u', 't', 'e', 'r', '(', openBrace] ++ rest) := rfl
    have htake : ((name ++ (routerOpenPat ++ rest)).takeWhile isWordChar) = name := by
      rw [List.takeWhile_append_of_pos hword, hpatcons,
        List.takeWhile_cons_of_neg hcolon, List.append_nil]
    have hdrop : ((name ++ (routerOpenPat ++ rest)).dropWhile isWordChar) =
        routerOpenPat ++ rest := by
      rw [List.dropWhile_append_of_pos hword, hpatcons,
        List.dropWhile_cons_of_neg hcolon]
    simp only [matchRouterLine]
    rw [htake, hdrop]
    have hsl : startsList routerOpenPat (routerOpenPat ++ rest) = true :=
      (startsList_iff routerOpenPat _).mpr ⟨rest, rfl⟩
    simp [hne, hsl]

/-! ### Theorems for claims C4 and C5 -/

/-- C4: the locator mapping has an entry `name -> i` exactly when line
`i` matches the anchored pattern (exactly two spaces, a nonempty run of
word characters, a colon, then `router({`) and no later line matches
with the same name; and a line matches the pattern with a given name
exactly when it decomposes, from its very first character, as two
spaces, the name (nonempty, all word characters), and the literal
`: router({` followed by arbitrary text. -/
theorem locator_mapping_characterization :
    (∀ (lines : List Line) (name : List Char) (i : Nat),
        routersFind lines name = some i ↔
          (i < lines.length ∧ matchRouterLine (lines.getD i []) = some name ∧
            ∀ j, j < lines.length → i < j →
              matchRouterLine (lines.getD j []) ≠ some name)) ∧
    (∀ (l : Line) (name : List Char),
        matchRouterLine l = some name ↔
          (name ≠ [] ∧ (∀ c ∈ name, isWordChar c = true) ∧
            ∃ rest, l = ' ' :: ' ' :: (name ++ (routerOpenPat ++ rest)))) := by
  constructor
  · intro lines name i
    constructor
    · intro h
      obtain ⟨h1, h2, h3⟩ := (lastMatchIdx_some_iff name lines i).mp
        ((routersFind_some_iff lines name i).mp h)
      exact ⟨h1, h2, fun j hj1 hj2 => h3 j hj2 hj1⟩
    · rintro ⟨h1, h2, h3⟩
      exact (routersFind_some_iff lines name i).mpr
        ((lastMatchIdx_some_iff name lines i).mpr ⟨h1, h2, fun j hj1 hj2 => h3 j hj2 hj1⟩)
  · exact matchRouterLine_some_iff

theorem locator_mapping_characterization_witness :
    routersFind exLines1 fooName = some 0 :=
  (locator_mapping_characterization.1 exLines1 fooName 0).mpr (by decide)

/-- The input with the same name declared twice. -/
def exLines5 : List Line :=
  [("  foo: router(\x7b").toList, ("\x7d),").toList,
    ("  foo: router(\x7b").toList, ("\x7d),").toList]

/-- C5: when the same name matches on two lines, the locator mapping
resolves it to a line no earlier than the later occurrence, that line
matches, and no line after it matches: the greatest-index occurrence
wins. -/
theorem locator_last_occurrence_wins (lines : List Line) (name : List Char)
    (i j : Nat) (_hij : i < j) (hj : j < lines.length)
    (_hi_match : matchRouterLine (lines.getD i []) = some name)
    (hj_match : matchRouterLine (lines.getD j []) = some name) :
    routersFind lines name ≠ none ∧
      ∀ g, routersFind lines name = some g →
        (j ≤ g ∧ matchRouterLine (lines.getD g []) = some name ∧
          ∀ k, k < lines.length → g < k →
            matchRouterLine (lines.getD k []) ≠ some name) := by
  have hex : lastMatchIdx name lines ≠ none := by
    intro hn
    exact (lastMatchIdx_none_iff name lines).mp hn j hj hj_match
  constructor
  · intro hn
    apply hex
    unfold routersFind at hn
    rw [routersFindFrom_eq] at hn
    cases hl : lastMatchIdx name lines with
    | none => rfl
    | some k => rw [hl] at hn; simp at hn
  · intro g hg
    obtain ⟨h1, h2, h3⟩ := (lastMatchIdx_some_iff name lines g).mp
      ((routersFind_some_iff lines name g).mp hg)
    refine ⟨?_, h2, fun k hk1 hk2 => h3 k hk2 hk1⟩
    by_contra hlt
    push_neg at hlt
    exact h3 j hlt hj hj_match

theorem locator_last_occurrence_wins_witness :
    routersFind exLines5 fooName ≠ none ∧ routersFind exLines5 fooName = some 2 := by
  have h := locator_last_occurrence_wins exLines5 fooName 0 2 (by decide) (by decide)
    (by decide) (by decide)
  exact ⟨h.1, by decide⟩

/-! ### Block extraction and the Group Reporter of `main` -/

/-- `extract_router_block(lines, start_idx)`: the end index by depth
matching, the comment-attached start, and the slice
`lines[comment_start : end_idx + 1]`; returned as
`(block, comment_start, end_idx)`. -/
def extract_router_block (lines : List Line) (start_idx : Nat) :
    List Line × Nat × Int :=
  ((lines.take ((findRouterEnd lines start_idx) + 1).toNat).drop
      (commentStart lines start_idx),
    commentStart lines start_idx, findRouterEnd lines start_idx)

/-- One line of the per-group report: a resolved member
(name, comment-attached start, end index, `len(block)`) or a
not-found marker. -/
inductive Entry where
  | found : List Char → Nat → Int → Nat → Entry
  | notFound : List Char → Entry
deriving DecidableEq

/-- The contribution of an entry to the group total: found entries
contribute their line count, not-found entries contribute nothing. -/
def entryTotal : Entry → Nat
  | Entry.found _ _ _ cnt => cnt
  | Entry.notFound _ => 0

/-- Processing one member name of a group in `main`: if the name is in
the locator mapping, extract its block and report it together with its
line-count contribution; otherwise report `NOT FOUND` with
contribution zero. -/
def reportMember (lines : List Line) (name : List Char) : Entry × Nat :=
  match routersFind lines name with
  | some start =>
    (Entry.found name (extract_router_block lines start).2.1
      (extract_router_block lines start).2.2
      (extract_router_block lines start).1.length,
      (extract_router_block lines start).1.length)
  | none => (Entry.notFound name, 0)

/-- The member loop of `main` for one group: the ordered entry list and
the accumulated `total_lines`. -/
def reportGroup (lines : List Line) : List (List Char) → List Entry × Nat
  | [] => ([], 0)
  | n :: ns =>
    ((reportMember lines n).1 :: (reportGroup lines ns).1,
      (reportMember lines n).2 + (reportGroup lines ns).2)

/-- The line printed for one entry:
`f"  {name}: lines {cs+1}-{ce+1} ({len(block)} lines)"` or
`f"  {name}: NOT FOUND"`. -/
def emitEntry : Entry → String
  | Entry.found name cs ce cnt =>
    "  " ++ String.mk name ++ ": lines " ++ toString (cs + 1) ++ "-" ++
      toString (ce + 1) ++ " (" ++ toString cnt ++ " lines)"
  | Entry.notFound name => "  " ++ String.mk name ++ ": NOT FOUND"

/-- The group-total line printed by `main`: `f"  Total: ~{total_lines} lines"`. -/
def emitTotal (t : Nat) : String := "  Total: ~" ++ toString t ++ " lines"

/-- The static extraction groups of `main`. -/
def groupsConfig : List (String × List String) :=
  [("analysisRouter",
    ["mixReport", "structure", "benchmark", "timeline", "dawExport",
      "moodEnergy", "insights", "matrix", "csvExport"]),
   ("collaborationRouter", ["collaboration", "comment"]),
   ("portfolioRouter", ["portfolio", "completion", "abCompare", "trackNote"]),
   ("playlistRouter", ["playlist", "reorder"]),
   ("subscriptionRouter", ["subscription", "usage"]),
   ("creativeRouter", ["artwork", "mastering", "sentimentHeatmap"])]

/-- The member names of the `playlistRouter` group, as character lists. -/
def playlistMembers : List (List Char) :=
  ((groupsConfig.getD 3 ("", [])).2).map (fun s => s.toList)

theorem reportMember_snd (lines : List Line) (n : List Char) :
    (reportMember lines n).2 = entryTotal (reportMember lines n).1 := by
  unfold reportMember
  cases h : routersFind lines n <;> simp [entryTotal]

theorem reportGroup_length (lines : List Line) :
    ∀ names : List (List Char), (reportGroup lines names).1.length = names.length := by
  intro names
  induction names with
  | nil => rfl
  | cons n ns ih => simp [reportGroup, ih]

theorem reportGroup_total (lines : List Line) :
    ∀ names : List (List Char),
      (reportGroup lines names).2 =
        (((reportGroup lines names).1).map entryTotal).sum := by
  intro names
  induction names with
  | nil => rfl
  | cons n ns ih => simp [reportGroup, ih, reportMember_snd]

theorem reportGroup_not_found_mem (lines : List Line) :
    ∀ (names : List (List Char)) (name : List Char), name ∈ names →
      routersFind lines name = none →
      Entry.notFound name ∈ (reportGroup lines names).1 := by
  intro names
  induction names with
  | nil => intro name h; exact absurd h (List.not_mem_nil name)
  | cons n ns ih =>
    intro name hmem habs
    have hcons : (reportGroup lines (n :: ns)).1 =
        (reportMember lines n).1 :: (reportGroup lines ns).1 := rfl
    rcases List.mem_cons.mp hmem with h | h
    · subst h
      have hnf : (reportMember lines name).1 = Entry.notFound name := by
        simp [reportMember, habs]
      rw [hcons, hnf]
      exact List.mem_cons_self _ _
    · rw [hcons]
      exact List.mem_cons_of_mem _ (ih name h habs)

/-- C6: a group member absent from the locator mapping yields a
`NOT FOUND` entry while every member still produces exactly one entry
(no abort), and the group total sums the line counts of the entries,
with not-found entries contributing zero. -/
theorem reporter_not_found (lines : List Line) (names : List (List Char))
    (name : List Char) (hmem : name ∈ names)
    (habs : routersFind lines name = none) :
    Entry.notFound name ∈ (reportGroup lines names).1 ∧
      (reportGroup lines names).1.length = names.length ∧
      (reportGroup lines names).2 =
        (((reportGroup lines names).1).map entryTotal).sum :=
  ⟨reportGroup_not_found_mem lines names name hmem habs,
    reportGroup_length lines names, reportGroup_total lines names⟩

theorem reporter_not_found_witness :
    Entry.notFound ("reorder").toList ∈ (reportGroup exLines5 playlistMembers).1 ∧
      (reportGroup exLines5 playlistMembers).1.length = playlistMembers.length ∧
      (reportGroup exLines5 playlistMembers).2 =
        (((reportGroup exLines5 playlistMembers).1).map entryTotal).sum :=
  reporter_not_found exLines5 playlistMembers ("reorder").toList (by decide) (by decide)

/-- The loop of `find_router_end` started in range lands on a scanned
line or falls back to the last line; either way the result is between
the start index and the last index. -/
theorem find_router_end_bounds (lines : List Line) (start : Nat)
    (h : start < lines.length) :
    (start : Int) ≤ findRouterEnd lines start ∧
      findRouterEnd lines start ≤ (lines.length : Int) - 1 := by
  unfold findRouterEnd
  rcases findRouterEndAux_bounds (lines.length : Int) (lines.drop start) start
    (0, 0, false) with h1 | ⟨h1, h2⟩
  · rw [h1]
    constructor <;> omega
  · have hlen : ((lines.drop start).length : Int) = (lines.length : Int) - start := by
      rw [List.length_drop]
      omega
    rw [hlen] at h2
    exact ⟨h1, by omega⟩

/-- C7: for an in-range declaration line, the extracted extent is
ordered: the comment-attached effective start is at most the
declaration line, which is at most the depth-matched end line. -/
theorem extent_ordering (lines : List Line) (start : Nat)
    (h : start < lines.length) :
    ((extract_router_block lines start).2.1 : Int) ≤ (start : Int) ∧
      (start : Int) ≤ (extract_router_block lines start).2.2 := by
  have h1 := commentStart_le lines start
  have h2 := (find_router_end_bounds lines start h).1
  constructor
  · show ((commentStart lines start : Nat) : Int) ≤ (start : Int)
    exact_mod_cast h1
  · exact h2

theorem extent_ordering_witness :
    ((extract_router_block exLines1 0).2.1 : Int) ≤ (0 : Int) ∧
      (0 : Int) ≤ (extract_router_block exLines1 0).2.2 := by
  have h := extent_ordering exLines1 0 (by decide)
  simpa using h

/-- C8: a found member's reported line count is
`endLine - effectiveStartLine + 1`, its printed line shows the
1-indexed inclusive range `effectiveStartLine+1` through `endLine+1`
in the form `  name: lines <start+1>-<end+1> (<count> lines)`, and the
group total is printed as `  Total: ~<sum> lines`. -/
theorem report_entry_format (lines : List Line) (names : List (List Char))
    (name : List Char) (start : Nat)
    (h : routersFind lines name = some start) :
    (reportMember lines name).1 =
        Entry.found name (commentStart lines start) (findRouterEnd lines start)
          ((extract_router_block lines start).1.length) ∧
      (((extract_router_block lines start).1.length : Int) =
        findRouterEnd lines start - commentStart lines start + 1) ∧
      emitEntry ((reportMember lines name).1) =
        "  " ++ String.mk name ++ ": lines " ++
          toString (commentStart lines start + 1) ++ "-" ++
          toString (findRouterEnd lines start + 1) ++ " (" ++
          toString ((extract_router_block lines start).1.length) ++ " lines)" ∧
      emitTotal (reportGroup lines names).2 =
        "  Total: ~" ++ toString (reportGroup lines names).2 ++ " lines" := by
  have hlt : start < lines.length := routersFind_lt lines name start h
  obtain ⟨hge, hle⟩ := find_router_end_bounds lines start hlt
  have hcs : commentStart lines start ≤ start := commentStart_le lines start
  have hfst : (reportMember lines name).1 =
      Entry.found name (commentStart lines start) (findRouterEnd lines start)
        ((extract_router_block lines start).1.length) := by
    simp [reportMember, h]
    exact ⟨rfl, rfl⟩
  have hlen : (extract_router_block lines start).1.length =
      ((findRouterEnd lines start) + 1).toNat - commentStart lines start := by
    show ((lines.take ((findRouterEnd lines start) + 1).toNat).drop
      (commentStart lines start)).length = _
    rw [List.length_drop, List.length_take]
    omega
  refine ⟨hfst, ?_, ?_, rfl⟩
  · rw [hlen]
    omega
  · rw [hfst]
    rfl

theorem report_entry_format_witness :
    (((extract_router_block exLines1 0).1.length : Int) =
        findRouterEnd exLines1 0 - commentStart exLines1 0 + 1) ∧
      emitTotal (reportGroup exLines1 [fooName]).2 =
        "  Total: ~" ++ toString (reportGroup exLines1 [fooName]).2 ++ " lines" := by
  have h := report_entry_format exLines1 [fooName] fooName 0 (by decide)
  exact ⟨h.2.1, h.2.2.2⟩
